import Mathlib

/-!
A verification development for the houseportal repository.

C strings are modelled as `List Char` without the terminating NUL; `time_t`
and `pid_t` are modelled as `Int`.  Each definition is a shallow embedding of
the C function named in its doc comment.
-/

namespace HousePortal

/-- REDIRECT_MAX (hp_redirect.c:89). -/
def REDIRECT_MAX : Nat := 128

/-- REDIRECT_LIFETIME (hp_redirect.c:90). -/
def REDIRECT_LIFETIME : Int := 180

/-- struct HttpRedirection (hp_redirect.c:78-87).  `length` is the cached
`strlen(path)`; `expiration` is 0 for a permanent entry, 1 for a tombstoned
one, otherwise an absolute expiry time. -/
structure HttpRedirection where
  path : List Char
  service : Option (List Char)
  target : List Char
  length : Nat
  hide : Bool
  pid : Int
  start : Int
  expiration : Int
deriving DecidableEq, Repr

/-- Well-formedness of a table entry, as established by the insertion code
(hp_redirect.c:314-324): the cached `length` is the length of `path`, the
path is a nonempty string, and the expiration is a (nonnegative) time value. -/
def entryWF (e : HttpRedirection) : Prop :=
  e.length = e.path.length ∧ e.path ≠ [] ∧ 0 ≤ e.expiration

instance entryWF.decidable (e : HttpRedirection) : Decidable (entryWF e) :=
  inferInstanceAs (Decidable (e.length = e.path.length ∧ e.path ≠ [] ∧ 0 ≤ e.expiration))

/-- `strncmp(a, b, n) == 0` for NUL-free C strings: the first `n` characters
agree (the comparison stops at the terminator of the shorter string, which
then differs from any remaining character of the other). -/
def strncmpEq (a b : List Char) (n : Nat) : Bool :=
  a.take n == b.take n

/-- The expiry test of the SearchBestRedirect loop (hp_redirect.c:129):
an entry is skipped when `expiration < now && expiration > 0`. -/
def searchExpired (now : Int) (e : HttpRedirection) : Bool :=
  decide (e.expiration < now) && decide (e.expiration > 0)

/-- The per-entry conditions of the SearchBestRedirect loop (hp_redirect.c:
129-131), minus the quality comparison: not expired, the entry's path is a
prefix of the request path, and the character of the request path at the end
of the prefix is end-of-string or '/'. -/
def entryMatches (now : Int) (path : List Char) (e : HttpRedirection) : Bool :=
  !searchExpired now e
  && strncmpEq e.path path e.length
  && (path.length == e.length || path.get? e.length == some '/')

/-- The scanning loop of SearchBestRedirect (hp_redirect.c:124-135): iterate
in table order, keeping each entry that strictly improves the matched
length. -/
def searchLoop (now : Int) (path : List Char) :
    List HttpRedirection → Nat → Option HttpRedirection → Option HttpRedirection
  | [], _, found => found
  | e :: rest, quality, found =>
    if e.length ≤ quality then searchLoop now path rest quality found
    else if entryMatches now path e then searchLoop now path rest e.length (some e)
    else searchLoop now path rest quality found

/-- SearchBestRedirect (hp_redirect.c:115-137).  A request path of fewer than
two characters (`path[0] == 0 || path[1] == 0`) is rejected up front. -/
def SearchBestRedirect (now : Int) (path : List Char)
    (table : List HttpRedirection) : Option HttpRedirection :=
  if path.length < 2 then none
  else searchLoop now path table 0 none

/-- Claim C1's matching condition, following the spec's words: the entry is
not expired, its path is a prefix of the URI, and the character at the end of
the prefix is end-of-string or '/'. -/
def specMatch (now : Int) (uri : List Char) (e : HttpRedirection) : Prop :=
  (e.expiration = 0 ∨ now ≤ e.expiration)
  ∧ uri.take e.path.length = e.path
  ∧ (uri.length = e.path.length ∨ uri.get? e.path.length = some '/')

theorem entryMatches_iff (now : Int) (uri : List Char) (e : HttpRedirection)
    (hwf : entryWF e) : entryMatches now uri e = true ↔ specMatch now uri e := by
  obtain ⟨hlen, hne, hexp⟩ := hwf
  simp only [entryMatches, searchExpired, strncmpEq, specMatch, hlen,
    Bool.and_eq_true, Bool.not_eq_true', Bool.and_eq_false_iff, beq_iff_eq,
    Bool.or_eq_true, decide_eq_false_iff_not, decide_eq_true_eq,
    List.take_length, not_lt, gt_iff_lt]
  constructor
  · rintro ⟨⟨h1, h2⟩, h3⟩
    refine ⟨?_, h2.symm, h3⟩
    rcases h1 with h | h
    · right; exact h
    · left; omega
  · rintro ⟨h1, h2, h3⟩
    refine ⟨⟨?_, h2.symm⟩, h3⟩
    rcases h1 with h | h
    · right; omega
    · left; exact h

theorem searchLoop_correct (now : Int) (path : List Char)
    (l : List HttpRedirection) :
    ∀ (quality : Nat) (found : Option HttpRedirection),
      (∀ f, found = some f → f.length = quality) →
      (searchLoop now path l quality found = none →
         found = none ∧ ∀ e ∈ l, entryMatches now path e = true → e.length ≤ quality)
      ∧ (∀ x, searchLoop now path l quality found = some x →
           ((x ∈ l ∧ entryMatches now path x = true) ∨ found = some x)
           ∧ quality ≤ x.length
           ∧ ∀ e ∈ l, entryMatches now path e = true → e.length ≤ x.length) := by
  induction l with
  | nil =>
    intro quality found hfq
    constructor
    · intro h
      exact ⟨h, by simp⟩
    · intro x hx
      simp only [searchLoop] at hx
      refine ⟨Or.inr hx, ?_, by simp⟩
      exact le_of_eq (hfq x hx).symm
  | cons e rest ih =>
    intro quality found hfq
    by_cases h1 : e.length ≤ quality
    · have hrec := ih quality found hfq
      simp only [searchLoop, if_pos h1]
      constructor
      · intro h
        obtain ⟨hf, hall⟩ := hrec.1 h
        refine ⟨hf, ?_⟩
        intro a ha hm
        rcases List.mem_cons.1 ha with rfl | ha'
        · exact h1
        · exact hall a ha' hm
      · intro x hx
        obtain ⟨hsrc, hq, hall⟩ := hrec.2 x hx
        refine ⟨?_, hq, ?_⟩
        · rcases hsrc with ⟨hmem, hm⟩ | hf
          · exact Or.inl ⟨List.mem_cons_of_mem _ hmem, hm⟩
          · exact Or.inr hf
        · intro a ha hm
          rcases List.mem_cons.1 ha with rfl | ha'
          · exact le_trans h1 hq
          · exact hall a ha' hm
    · push_neg at h1
      by_cases h2 : entryMatches now path e = true
      · have hrec := ih e.length (some e) (by intro f hf; cases hf; rfl)
        simp only [searchLoop, if_neg (not_le.2 h1), if_pos h2]
        constructor
        · intro h
          exact absurd (hrec.1 h).1 (by simp)
        · intro x hx
          obtain ⟨hsrc, hq, hall⟩ := hrec.2 x hx
          refine ⟨?_, le_trans (le_of_lt h1) hq, ?_⟩
          · rcases hsrc with ⟨hmem, hm⟩ | hf
            · exact Or.inl ⟨List.mem_cons_of_mem _ hmem, hm⟩
            · cases hf
              exact Or.inl ⟨List.mem_cons_self _ _, h2⟩
          · intro a ha hm
            rcases List.mem_cons.1 ha with rfl | ha'
            · exact hq
            · exact hall a ha' hm
      · have hrec := ih quality found hfq
        simp only [searchLoop, if_neg (not_le.2 h1), if_neg h2]
        constructor
        · intro h
          obtain ⟨hf, hall⟩ := hrec.1 h
          refine ⟨hf, ?_⟩
          intro a ha hm
          rcases List.mem_cons.1 ha with rfl | ha'
          · exact absurd hm h2
          · exact hall a ha' hm
        · intro x hx
          obtain ⟨hsrc, hq, hall⟩ := hrec.2 x hx
          refine ⟨?_, hq, ?_⟩
          · rcases hsrc with ⟨hmem, hm⟩ | hf
            · exact Or.inl ⟨List.mem_cons_of_mem _ hmem, hm⟩
            · exact Or.inr hf
          · intro a ha hm
            rcases List.mem_cons.1 ha with rfl | ha'
            · exact absurd hm h2
            · exact hall a ha' hm

/-- **C1.** For every request URI and every (well-formed) state of the
redirection table, `SearchBestRedirect` returns an entry with maximum path
length among the non-expired entries whose path is a prefix of the URI with
the character at the end of the prefix being end-of-string or '/'; it
returns none exactly when no entry matches or the URI is shorter than two
characters. -/
theorem searchBestRedirect_spec (now : Int) (uri : List Char)
    (table : List HttpRedirection) (hwf : ∀ e ∈ table, entryWF e) :
    (SearchBestRedirect now uri table = none ↔
       uri.length < 2 ∨ ∀ e ∈ table, ¬ specMatch now uri e)
    ∧ (∀ e, SearchBestRedirect now uri table = some e →
         2 ≤ uri.length ∧ e ∈ table ∧ specMatch now uri e
         ∧ ∀ e' ∈ table, specMatch now uri e' → e'.path.length ≤ e.path.length) := by
  by_cases hshort : uri.length < 2
  · constructor
    · simp [SearchBestRedirect, hshort]
    · intro e he
      simp [SearchBestRedirect, hshort] at he
  · have hloop := searchLoop_correct now uri table 0 none (by intro f hf; cases hf)
    have hdef : SearchBestRedirect now uri table = searchLoop now uri table 0 none := by
      simp [SearchBestRedirect, hshort]
    constructor
    · rw [hdef]
      constructor
      · intro h
        right
        intro e he hspec
        have hm := (entryMatches_iff now uri e (hwf e he)).2 hspec
        have := hloop.1 h
        have hle := this.2 e he hm
        have hne := (hwf e he).2.1
        have hlen := (hwf e he).1
        have hpos : e.path.length ≠ 0 := by
          intro h0
          exact hne (List.eq_nil_of_length_eq_zero h0)
        omega
      · intro h
        rcases h with h | h
        · exact absurd h hshort
        · cases hval : searchLoop now uri table 0 none with
          | none => rfl
          | some x =>
            obtain ⟨hsrc, _, _⟩ := hloop.2 x hval
            rcases hsrc with ⟨hmem, hm⟩ | hf
            · exact absurd ((entryMatches_iff now uri x (hwf x hmem)).1 hm) (h x hmem)
            · cases hf
    · intro e he
      rw [hdef] at he
      obtain ⟨hsrc, _, hall⟩ := hloop.2 e he
      have hmem : e ∈ table ∧ entryMatches now uri e = true := by
        rcases hsrc with h | hf
        · exact h
        · cases hf
      refine ⟨by omega, hmem.1, (entryMatches_iff now uri e (hwf e hmem.1)).1 hmem.2, ?_⟩
      intro e' he' hspec
      have hm' := (entryMatches_iff now uri e' (hwf e' he')).2 hspec
      have := hall e' he' hm'
      have h1 := (hwf e' he').1
      have h2 := (hwf e hmem.1).1
      omega

/-- A concrete permanent entry, used by witnesses. -/
def entryA : HttpRedirection :=
  { path := ("/ab".toList), service := none, target := ("h:1".toList),
    length := 3, hide := false, pid := 0, start := 0, expiration := 0 }

theorem searchBestRedirect_spec_witness :
    (∀ e ∈ [entryA], entryWF e)
    ∧ ((SearchBestRedirect 7 ("/ab/x".toList) [entryA] = none ↔
          ("/ab/x".toList).length < 2 ∨ ∀ e ∈ [entryA], ¬ specMatch 7 ("/ab/x".toList) e)
       ∧ (∀ e, SearchBestRedirect 7 ("/ab/x".toList) [entryA] = some e →
            2 ≤ ("/ab/x".toList).length ∧ e ∈ [entryA] ∧ specMatch 7 ("/ab/x".toList) e
            ∧ ∀ e' ∈ [entryA], specMatch 7 ("/ab/x".toList) e' →
                e'.path.length ≤ e.path.length)) :=
  ⟨by decide, searchBestRedirect_spec 7 ("/ab/x".toList) [entryA] (by decide)⟩

/-- The keep condition of the PruneRedirect loop (hp_redirect.c:165): an entry
survives when `expiration == 0 || now < expiration`. -/
def keepRedirect (now : Int) (e : HttpRedirection) : Bool :=
  (e.expiration == 0) || decide (now < e.expiration)

/-- One iteration of the PruneRedirect loop at index `i` (hp_redirect.c:
163-183): a removed entry is overwritten by the last entry and the array
shrinks by one (when `i` is the last index this degenerates to truncation). -/
def pruneStep (now : Int) (l : List HttpRedirection) (i : Nat) :
    List HttpRedirection :=
  match l[i]? with
  | none => l
  | some e =>
    if keepRedirect now e then l
    else (l.set i (l.getLastD e)).dropLast

/-- The PruneRedirect loop, iterating indices `i-1, i-2, ..., 0`. -/
def pruneDown (now : Int) : List HttpRedirection → Nat → List HttpRedirection
  | l, 0 => l
  | l, i + 1 => pruneDown now (pruneStep now l i) i

/-- PruneRedirect (hp_redirect.c:159-196): remove the expired entries,
scanning the table downward from the last index. -/
def PruneRedirect (now : Int) (l : List HttpRedirection) :
    List HttpRedirection :=
  pruneDown now l l.length

theorem pruneDown_perm (now : Int) :
    ∀ (i : Nat) (l : List HttpRedirection), i ≤ l.length →
      List.Perm (pruneDown now l i)
        ((l.take i).filter (keepRedirect now) ++ l.drop i) := by
  intro i
  induction i with
  | zero =>
    intro l _
    simp [pruneDown]
  | succ i ih =>
    intro l hle
    have hi : i < l.length := Nat.lt_of_succ_le hle
    obtain ⟨A, e, B, rfl, hAlen⟩ :
        ∃ A e B, l = A ++ e :: B ∧ A.length = i := by
      refine ⟨l.take i, l[i], l.drop (i + 1), ?_, by simp [List.length_take]; omega⟩
      conv_lhs => rw [← List.take_append_drop i l]
      rw [List.drop_eq_getElem_cons hi]
    have hget : (A ++ e :: B)[i]? = some e := by
      rw [List.getElem?_append_right (by omega)]
      simp [hAlen]
    have ht0 : (A ++ e :: B).take i = A := List.take_left' hAlen
    have hd0 : (A ++ e :: B).drop i = e :: B := List.drop_left' hAlen
    have ht1 : (A ++ e :: B).take (i + 1) = A ++ [e] := by
      have h1 : A ++ e :: B = (A ++ [e]) ++ B := by simp
      rw [h1, List.take_left' (by simp [hAlen])]
    have hd1 : (A ++ e :: B).drop (i + 1) = B := by
      have h1 : A ++ e :: B = (A ++ [e]) ++ B := by simp
      rw [h1, List.drop_left' (by simp [hAlen])]
    simp only [pruneDown]
    by_cases hk : keepRedirect now e
    · have hstep : pruneStep now (A ++ e :: B) i = A ++ e :: B := by
        simp [pruneStep, hget, hk]
      rw [hstep]
      have hIH := ih (A ++ e :: B) (le_of_lt hi)
      refine hIH.trans ?_
      rw [ht0, hd0, ht1, hd1, List.filter_append]
      simp only [List.filter_cons, List.filter_nil, hk, if_pos]
      simp
    · rcases List.eq_nil_or_concat B with rfl | ⟨M, z, rfl⟩
      · have hstep : pruneStep now (A ++ [e]) i = A := by
          simp only [pruneStep, hget, if_neg hk]
          rw [List.getLastD_concat,
            List.set_append_right _ _ hAlen.le]
          simp only [hAlen, Nat.sub_self, List.set_cons_zero]
          exact List.dropLast_concat
        rw [hstep]
        have hIH := ih A (le_of_eq hAlen.symm)
        refine hIH.trans ?_
        rw [ht1, hd1, List.filter_append]
        rw [← hAlen, List.take_length, List.drop_length]
        simp [hk]
      · simp only [List.concat_eq_append] at *
        have hstep : pruneStep now (A ++ e :: (M ++ [z])) i = A ++ z :: M := by
          simp only [pruneStep, hget, if_neg hk]
          have h2 : A ++ e :: (M ++ [z]) = (A ++ e :: M) ++ [z] := by simp
          rw [h2, List.getLastD_concat, ← h2,
            List.set_append_right _ _ hAlen.le]
          simp only [hAlen, Nat.sub_self, List.set_cons_zero]
          have h3 : A ++ z :: (M ++ [z]) = (A ++ z :: M) ++ [z] := by simp
          rw [h3, List.dropLast_concat]
        rw [hstep]
        have hIH := ih (A ++ z :: M) (by simp [hAlen])
        refine hIH.trans ?_
        rw [List.take_left' hAlen, List.drop_left' hAlen, ht1, hd1,
          List.filter_append]
        simp only [List.filter_cons, List.filter_nil, hk, if_neg, Bool.false_eq_true,
          not_false_iff, List.append_nil]
        refine List.Perm.append_left _ ?_
        exact (List.perm_append_singleton z M).symm

/-- Membership in the pruned table: exactly the entries whose keep condition
holds survive PruneRedirect. -/
theorem pruneRedirect_mem (now : Int) (l : List HttpRedirection)
    (e : HttpRedirection) :
    e ∈ PruneRedirect now l ↔ e ∈ l ∧ keepRedirect now e = true := by
  have h := pruneDown_perm now l.length l (le_refl _)
  unfold PruneRedirect
  rw [h.mem_iff]
  simp [List.take_length, List.drop_length, List.mem_filter]

/-- A concrete live entry (lease expiring at time 5), used by witnesses and
counterexamples. -/
def entryB : HttpRedirection :=
  { path := ("/ab".toList), service := none, target := ("h:1".toList),
    length := 3, hide := false, pid := 4, start := 2, expiration := 5 }

/-- **C4 (counterexample).** An entry whose lease expires exactly at the
current time is still matched by SearchBestRedirect, yet PruneRedirect at
that same time removes it — contradicting the claim that such an entry is
not removed. -/
theorem lease_at_now_is_reaped :
    entryB.expiration = 5
    ∧ SearchBestRedirect 5 ("/ab/x".toList) [entryB] = some entryB
    ∧ PruneRedirect 5 [entryB] = [] := by
  refine ⟨rfl, ?_, ?_⟩ <;> decide

/-- **C4 (amended).** PruneRedirect removes exactly the entries with
`0 < expiration ≤ now` — including a lease expiring exactly at `now` — and
never removes a permanent entry; SearchBestRedirect, by contrast, only skips
entries with `0 < expiration < now`, so a lease expiring exactly at `now` is
still matched. -/
theorem reap_boundary (now : Int) (l : List HttpRedirection) :
    (∀ e ∈ l, e ∈ PruneRedirect now l ↔ e.expiration = 0 ∨ now < e.expiration)
    ∧ (∀ e : HttpRedirection, e.expiration = now → searchExpired now e = false) := by
  constructor
  · intro e he
    rw [pruneRedirect_mem]
    simp only [keepRedirect, Bool.or_eq_true, beq_iff_eq, decide_eq_true_eq,
      he, true_and]
  · intro e he
    simp [searchExpired, he]

theorem reap_boundary_witness :
    entryA ∈ [entryA, entryB]
    ∧ (entryA ∈ PruneRedirect 5 [entryA, entryB] ↔
         entryA.expiration = 0 ∨ 5 < entryA.expiration) :=
  ⟨by decide, (reap_boundary 5 [entryA, entryB]).1 entryA (by decide)⟩

/-- The target rewriting of AddSingleRedirect (hp_redirect.c:242-245): when
the client supplied no host (no ':' in the target), the portal host name is
prepended. -/
def mungeTarget (hostName target : List Char) : List Char :=
  if target.contains ':' then target else hostName ++ ':' :: target

/-- The renewal update of AddSingleRedirect (hp_redirect.c:253-288), applied
to the first entry whose path equals the message path.  The service field
equals the supplied service after each of the three service branches of the C
code (the branches differ only in the events they log).  `restarted` is set
when the target differs or a nonzero pid differs, and then `start` is set to
the current time. -/
def renewRedirect (now : Int) (hide : Bool) (pid : Int) (target : List Char)
    (service : Option (List Char)) (expiration : Int) (e : HttpRedirection) :
    HttpRedirection :=
  let restarted : Bool := (e.target != target) || (pid != 0 && pid != e.pid)
  { e with
    target := target
    service := service
    pid := if pid != 0 && pid != e.pid then pid else e.pid
    start := if restarted then now else e.start
    hide := hide
    expiration := expiration }

/-- The renewal-search loop of AddSingleRedirect (hp_redirect.c:251-290):
scan for the first entry with the message path; a live message matching a
permanent entry is a no-op; returns none when no entry has the path (the
message then claims a new slot). -/
def addSingleLoop (now : Int) (live hide : Bool) (pid : Int)
    (target : List Char) (service : Option (List Char)) (path : List Char)
    (expiration : Int) :
    List HttpRedirection → Option (List HttpRedirection)
  | [] => none
  | e :: rest =>
    if e.path = path then
      if live && e.expiration == 0 then some (e :: rest)
      else some (renewRedirect now hide pid target service expiration e :: rest)
    else
      (addSingleLoop now live hide pid target service path expiration rest).map
        (e :: ·)

/-- AddSingleRedirect (hp_redirect.c:233-327): renewal in place when the path
exists, otherwise a new slot at the end of the table (dropped when the table
holds REDIRECT_MAX entries). -/
def AddSingleRedirect (hostName : List Char) (now : Int) (live hide : Bool)
    (pid : Int) (target : List Char) (service : Option (List Char))
    (path : List Char) (l : List HttpRedirection) : List HttpRedirection :=
  let target' := mungeTarget hostName target
  let expiration : Int := if live then now + REDIRECT_LIFETIME else 0
  match addSingleLoop now live hide pid target' service path expiration l with
  | some l' => l'
  | none =>
    if l.length < REDIRECT_MAX then
      l ++ [{ path := path, service := service, target := target',
              length := path.length, hide := hide, pid := pid,
              start := now, expiration := expiration }]
    else l

theorem addSingleLoop_permanent (now : Int) (hide : Bool) (pid : Int)
    (target : List Char) (service : Option (List Char)) (path : List Char)
    (expiration : Int) :
    ∀ (l : List HttpRedirection) (i : Nat) (e : HttpRedirection),
      l[i]? = some e → e.expiration = 0 → e.path = path →
      ∀ l', addSingleLoop now true hide pid target service path expiration l
              = some l' →
        l'[i]? = some e := by
  intro l
  induction l with
  | nil =>
    intro i e hi
    simp at hi
  | cons f rest ih =>
    intro i e hi hperm hpath l' hl'
    simp only [addSingleLoop] at hl'
    by_cases hf : f.path = path
    · rw [if_pos hf] at hl'
      by_cases hp : (true && f.expiration == 0) = true
      · rw [if_pos hp] at hl'
        cases hl'
        exact hi
      · rw [if_neg hp] at hl'
        cases hl'
        match i with
        | 0 =>
          rw [List.getElem?_cons_zero] at hi
          cases hi
          simp [hperm] at hp
        | j + 1 =>
          rw [List.getElem?_cons_succ] at hi ⊢
          exact hi
    · rw [if_neg hf] at hl'
      rcases Option.map_eq_some'.1 hl' with ⟨r, hr, rfl⟩
      match i with
      | 0 =>
        rw [List.getElem?_cons_zero] at hi
        cases hi
        exact absurd hpath hf
      | j + 1 =>
        rw [List.getElem?_cons_succ] at hi ⊢
        exact ih j e hi hperm hpath r hr

/-- **C5.** Processing a live REDIRECT message whose path matches a permanent
entry (expiration 0) leaves that entry completely unchanged — target,
service, hide, pid, start and expiration keep their previous values — at its
position in the table. -/
theorem permanent_entry_unchanged (hostName : List Char) (now : Int)
    (hide : Bool) (pid : Int) (target : List Char)
    (service : Option (List Char)) (path : List Char)
    (l : List HttpRedirection) (i : Nat) (e : HttpRedirection)
    (hi : l[i]? = some e) (hperm : e.expiration = 0) (hpath : e.path = path) :
    (AddSingleRedirect hostName now true hide pid target service path l)[i]?
      = some e := by
  have hred : AddSingleRedirect hostName now true hide pid target service path l
      = (match addSingleLoop now true hide pid (mungeTarget hostName target)
              service path (now + REDIRECT_LIFETIME) l with
         | some l' => l'
         | none =>
           if l.length < REDIRECT_MAX then
             l ++ [{ path := path, service := service,
                     target := mungeTarget hostName target,
                     length := path.length, hide := hide, pid := pid,
                     start := now, expiration := now + REDIRECT_LIFETIME }]
           else l) := rfl
  rw [hred]
  cases hmx : addSingleLoop now true hide pid (mungeTarget hostName target)
      service path (now + REDIRECT_LIFETIME) l with
  | some l' =>
    exact addSingleLoop_permanent now hide pid (mungeTarget hostName target)
      service path _ l i e hi hperm hpath l' hmx
  | none =>
    obtain ⟨hlt, -⟩ := List.getElem?_eq_some.1 hi
    by_cases hcap : l.length < REDIRECT_MAX
    · simp only [if_pos hcap, List.getElem?_append, if_pos hlt]
      exact hi
    · simp only [if_neg hcap]
      exact hi

theorem permanent_entry_unchanged_witness :
    [entryA][0]? = some entryA ∧ entryA.expiration = 0
    ∧ entryA.path = ("/ab".toList)
    ∧ (AddSingleRedirect ("h".toList) 100 true true 9 ("t2".toList) none
         ("/ab".toList) [entryA])[0]? = some entryA :=
  ⟨by decide, by decide, by decide,
    permanent_entry_unchanged ("h".toList) 100 true 9 ("t2".toList) none
      ("/ab".toList) [entryA] 0 entryA (by decide) (by decide) (by decide)⟩

theorem addSingleLoop_first (now : Int) (live hide : Bool) (pid : Int)
    (target : List Char) (service : Option (List Char)) (expiration : Int) :
    ∀ (A : List HttpRedirection) (e : HttpRedirection)
      (B : List HttpRedirection),
      (∀ a ∈ A, a.path ≠ e.path) →
      addSingleLoop now live hide pid target service e.path expiration
          (A ++ e :: B)
        = some (A ++ (if live && e.expiration == 0 then e
                      else renewRedirect now hide pid target service
                             expiration e) :: B) := by
  intro A
  induction A with
  | nil =>
    intro e B _
    simp only [List.nil_append, addSingleLoop, if_pos rfl]
    by_cases hp : (live && e.expiration == 0) = true
    · simp [hp]
    · simp [hp]
  | cons a A ih =>
    intro e B hA
    have ha : a.path ≠ e.path := hA a (List.mem_cons_self a A)
    simp only [List.cons_append, addSingleLoop, if_neg ha, List.append_eq]
    rw [ih e B (fun x hx => hA x (List.mem_cons_of_mem a hx))]
    rfl

/-- AddSingleRedirect reduces to the renewal-loop result when the loop finds
the path. -/
theorem addSingleRedirect_of_loop (hostName : List Char) (now : Int)
    (live hide : Bool) (pid : Int) (target : List Char)
    (service : Option (List Char)) (path : List Char)
    (l l' : List HttpRedirection)
    (h : addSingleLoop now live hide pid (mungeTarget hostName target) service
           path (if live then now + REDIRECT_LIFETIME else 0) l = some l') :
    AddSingleRedirect hostName now live hide pid target service path l = l' := by
  simp only [AddSingleRedirect]
  rw [h]

/-- **C6.** A REDIRECT for the path of an existing (non-permanent, or not
live) entry renews that entry in place; the renewed entry's start timestamp
is set to the current time exactly when the message changes the target
(after host substitution) or supplies a different nonzero pid, and keeps its
previous value otherwise. -/
theorem renewal_start_update (hostName : List Char) (now : Int)
    (live hide : Bool) (pid : Int) (target : List Char)
    (service : Option (List Char)) (A : List HttpRedirection)
    (e : HttpRedirection) (B : List HttpRedirection)
    (hfirst : ∀ a ∈ A, a.path ≠ e.path)
    (hnotperm : ¬ (live = true ∧ e.expiration = 0)) :
    AddSingleRedirect hostName now live hide pid target service e.path
        (A ++ e :: B)
      = A ++ renewRedirect now hide pid (mungeTarget hostName target) service
               (if live then now + REDIRECT_LIFETIME else 0) e :: B
    ∧ (renewRedirect now hide pid (mungeTarget hostName target) service
         (if live then now + REDIRECT_LIFETIME else 0) e).start
        = if mungeTarget hostName target ≠ e.target ∨ (pid ≠ 0 ∧ pid ≠ e.pid)
          then now else e.start := by
  have hcond : (live && e.expiration == 0) = false := by
    cases live
    · simp
    · simp only [Bool.true_and, beq_eq_false_iff_ne, ne_eq]
      intro h
      exact hnotperm ⟨rfl, h⟩
  constructor
  · have hloop := addSingleLoop_first now live hide pid
      (mungeTarget hostName target) service
      (if live then now + REDIRECT_LIFETIME else 0) A e B hfirst
    rw [hcond, if_neg Bool.false_ne_true] at hloop
    exact addSingleRedirect_of_loop hostName now live hide pid target service
      e.path (A ++ e :: B) _ hloop
  · simp only [renewRedirect]
    by_cases hc : mungeTarget hostName target ≠ e.target ∨ (pid ≠ 0 ∧ pid ≠ e.pid)
    · rw [if_pos hc]
      have hb : ((e.target != mungeTarget hostName target)
          || (pid != 0 && pid != e.pid)) = true := by
        rcases hc with h | ⟨h1, h2⟩
        · simp [bne_iff_ne, Ne.symm h]
        · simp [bne_iff_ne, h1, h2]
      simp [hb]
    · rw [if_neg hc]
      push_neg at hc
      obtain ⟨h1, h2⟩ := hc
      have hb : ((e.target != mungeTarget hostName target)
          || (pid != 0 && pid != e.pid)) = false := by
        by_cases hp : pid = 0
        · simp [bne_iff_ne, h1, hp]
        · simp [bne_iff_ne, h1, h2 hp]
      simp [hb]

theorem renewal_start_update_witness :
    (∀ a ∈ ([] : List HttpRedirection), a.path ≠ entryB.path)
    ∧ ¬ (true = true ∧ entryB.expiration = 0)
    ∧ (renewRedirect 100 false 0 (mungeTarget ("h".toList) ("h:1".toList)) none
         (if true then 100 + REDIRECT_LIFETIME else 0) entryB).start
        = (if mungeTarget ("h".toList) ("h:1".toList) ≠ entryB.target
              ∨ ((0 : Int) ≠ 0 ∧ (0 : Int) ≠ entryB.pid)
           then 100 else entryB.start) :=
  ⟨by decide, by decide,
    (renewal_start_update ("h".toList) 100 true false 0 ("h:1".toList) none []
      entryB [] (by decide) (by decide)).2⟩

/-- struct PortalPeers (hp_redirect.c:95-98). -/
structure PortalPeers where
  name : List Char
  expiration : Int
deriving DecidableEq, Repr

/-- The matching loop of AddOnePeer (hp_redirect.c:369-383): the first peer
with the given name is refreshed only when its current expiration is positive
and older than the new one (`existing > 0 && existing < expiration`, "no
downgrade"); returns none when the name is unknown. -/
def addOnePeerLoop (name : List Char) (expiration : Int) :
    List PortalPeers → Option (List PortalPeers)
  | [] => none
  | p :: rest =>
    if p.name = name then
      some ((if 0 < p.expiration ∧ p.expiration < expiration
             then { p with expiration := expiration } else p) :: rest)
    else (addOnePeerLoop name expiration rest).map (p :: ·)

/-- AddOnePeer (hp_redirect.c:365-392): refresh a known peer in place, or
append a new peer (dropped when the table holds REDIRECT_MAX peers). -/
def AddOnePeer (name : List Char) (expiration : Int) (l : List PortalPeers) :
    List PortalPeers :=
  match addOnePeerLoop name expiration l with
  | some l' => l'
  | none =>
    if l.length < REDIRECT_MAX then l ++ [{ name := name, expiration := expiration }]
    else l

theorem addOnePeerLoop_first (t2 : Int) :
    ∀ (A : List PortalPeers) (p : PortalPeers) (B : List PortalPeers),
      (∀ q ∈ A, q.name ≠ p.name) →
      addOnePeerLoop p.name t2 (A ++ p :: B)
        = some (A ++ (if 0 < p.expiration ∧ p.expiration < t2
                      then { p with expiration := t2 } else p) :: B) := by
  intro A
  induction A with
  | nil =>
    intro p B _
    simp [addOnePeerLoop]
  | cons a A ih =>
    intro p B hA
    have ha : a.name ≠ p.name := hA a (List.mem_cons_self a A)
    simp only [List.cons_append, addOnePeerLoop, if_neg ha, List.append_eq]
    rw [ih p B (fun x hx => hA x (List.mem_cons_of_mem a hx))]
    rfl

/-- **C7.** Peer expiration is monotonic upward: a PEER update for a known
peer (first entry with that name) stores the new expiration t2 exactly when
the current expiration t1 satisfies `0 < t1 < t2`; in particular a message
with `t2 ≤ t1` leaves the table unchanged, and a static peer (t1 = 0) is
never changed by gossip. -/
theorem peer_monotonic (t2 : Int) (A : List PortalPeers) (p : PortalPeers)
    (B : List PortalPeers) (hfirst : ∀ q ∈ A, q.name ≠ p.name) :
    AddOnePeer p.name t2 (A ++ p :: B)
      = A ++ (if 0 < p.expiration ∧ p.expiration < t2
              then { p with expiration := t2 } else p) :: B
    ∧ (p.expiration = 0 → AddOnePeer p.name t2 (A ++ p :: B) = A ++ p :: B)
    ∧ (t2 ≤ p.expiration → AddOnePeer p.name t2 (A ++ p :: B) = A ++ p :: B) := by
  have hmain : AddOnePeer p.name t2 (A ++ p :: B)
      = A ++ (if 0 < p.expiration ∧ p.expiration < t2
              then { p with expiration := t2 } else p) :: B := by
    unfold AddOnePeer
    rw [addOnePeerLoop_first t2 A p B hfirst]
  refine ⟨hmain, ?_, ?_⟩
  · intro h0
    rw [hmain, if_neg (by omega)]
  · intro hle
    rw [hmain, if_neg (by omega)]

theorem peer_monotonic_witness :
    (∀ q ∈ ([] : List PortalPeers), q.name ≠ ("b".toList))
    ∧ AddOnePeer ("b".toList) 20
        ([] ++ ({ name := ("b".toList), expiration := 10 } : PortalPeers) :: [])
      = [] ++ (if 0 < (10 : Int) ∧ (10 : Int) < 20
               then ({ name := ("b".toList), expiration := 20 } : PortalPeers)
               else { name := ("b".toList), expiration := 10 }) :: [] :=
  ⟨by decide,
    (peer_monotonic 20 [] { name := ("b".toList), expiration := 10 } []
      (by decide)).1⟩

/-- The digit-accumulation loop of atoll, used on PEER expiration suffixes. -/
def atollLoop : List Char → Nat → Nat
  | [], acc => acc
  | c :: rest, acc =>
    if '0' ≤ c ∧ c ≤ '9' then atollLoop rest (10 * acc + (c.toNat - '0'.toNat))
    else acc

/-- atoll (libc), as used by AddPeers (hp_redirect.c:407): optional blanks,
optional sign, leading decimal digits. -/
def atoll (s : List Char) : Int :=
  match s.dropWhile (fun c => c == ' ' || c == '\t') with
  | '-' :: rest => -(atollLoop rest 0 : Int)
  | '+' :: rest => (atollLoop rest 0 : Int)
  | rest => (atollLoop rest 0 : Int)

/-- `strchr(tok, '=')` splitting as done by AddPeers (hp_redirect.c:405-409):
the part before the first '=' and the part after it. -/
def splitAtEq : List Char → Option (List Char × List Char)
  | [] => none
  | c :: rest =>
    if c = '=' then some ([], rest)
    else (splitAtEq rest).map (fun pr => (c :: pr.1, pr.2))

/-- Parse one PEER token (hp_redirect.c:401-410): for a live message a token
`name=exp` carries the sender's expiration, a bare token gets the default;
for a static (configuration) token the default always applies. -/
def parsePeerToken (live : Bool) (defaultExp : Int) (tok : List Char) :
    List Char × Int :=
  if live then
    match splitAtEq tok with
    | some pr => (pr.1, atoll pr.2)
    | none => (tok, defaultExp)
  else (tok, defaultExp)

/-- AddPeers (hp_redirect.c:394-413): a packet whose first token equals the
portal's host name is ignored entirely (own packet); otherwise every token,
including the first, is added via AddOnePeer. -/
def AddPeers (hostName : List Char) (now : Int) (live : Bool)
    (tokens : List (List Char)) (l : List PortalPeers) : List PortalPeers :=
  match tokens with
  | [] => l
  | t0 :: _ =>
    if t0 = hostName then l
    else
      tokens.foldl (fun acc tok =>
        let pr := parsePeerToken live (if live then now + REDIRECT_LIFETIME else 0)
                    tok
        AddOnePeer pr.1 pr.2 acc) l

/-- The name under which the portal lists itself first in its own peer table
(hp_redirect_start, hp_redirect.c:852-861): bare host when the HTTP port is
80, `host:port` otherwise. -/
def selfPeerName (hostName : List Char) (port : Nat) : List Char :=
  if port = 80 then hostName else hostName ++ ':' :: Nat.toDigits 10 port

/-- The peer table right after startup (hp_redirect.c:852-861). -/
def startupPeers (hostName : List Char) (port : Nat) : List PortalPeers :=
  AddOnePeer (selfPeerName hostName port) 0 []

/-- A sequence of inbound PEER messages `(now, live, tokens)` applied to the
peer table (via DecodeMessage → AddPeers). -/
def runPeerMsgs (hostName : List Char)
    (msgs : List (Int × Bool × List (List Char))) (l : List PortalPeers) :
    List PortalPeers :=
  msgs.foldl (fun acc m => AddPeers hostName m.1 m.2.1 m.2.2 acc) l

/-- The self-entry invariant of the peer table: the portal's own name is the
first entry, static (expiration 0), and appears nowhere else. -/
def selfInv (self : List Char) (l : List PortalPeers) : Prop :=
  l.head? = some { name := self, expiration := 0 }
  ∧ ∀ p ∈ l.tail, p.name ≠ self

/-- **C8 (counterexample).** Startup itself inserts the portal's own host
name into the peer table (the portal lists itself first), so the table does
contain an entry named with the portal's own host name. -/
theorem self_peer_at_startup :
    startupPeers ("alpha".toList) 80
      = [{ name := ("alpha".toList), expiration := 0 }]
    ∧ ∃ p ∈ startupPeers ("alpha".toList) 80, p.name = ("alpha".toList) := by
  constructor
  · decide
  · exact ⟨{ name := ("alpha".toList), expiration := 0 }, by decide, rfl⟩

theorem addOnePeerLoop_names (name : List Char) (expiration : Int)
    (self : List Char) :
    ∀ (t t' : List PortalPeers), addOnePeerLoop name expiration t = some t' →
      (∀ q ∈ t, q.name ≠ self) → ∀ q ∈ t', q.name ≠ self := by
  intro t
  induction t with
  | nil =>
    intro t' h
    simp [addOnePeerLoop] at h
  | cons p rest ih =>
    intro t' h hall q hq
    simp only [addOnePeerLoop] at h
    by_cases hp : p.name = name
    · rw [if_pos hp] at h
      cases h
      rcases List.mem_cons.1 hq with rfl | hq'
      · by_cases hcond : 0 < p.expiration ∧ p.expiration < expiration
        · rw [if_pos hcond]
          exact hall p (List.mem_cons_self p rest)
        · rw [if_neg hcond]
          exact hall p (List.mem_cons_self p rest)
      · exact hall q (List.mem_cons_of_mem p hq')
    · rw [if_neg hp] at h
      rcases Option.map_eq_some'.1 h with ⟨r, hr, rfl⟩
      rcases List.mem_cons.1 hq with rfl | hq'
      · exact hall q (List.mem_cons_self q rest)
      · exact ih r hr (fun x hx => hall x (List.mem_cons_of_mem p hx)) q hq'

theorem addOnePeer_selfInv (self name : List Char) (expiration : Int)
    (l : List PortalPeers) (hinv : selfInv self l) :
    selfInv self (AddOnePeer name expiration l) := by
  obtain ⟨hhead, htail⟩ := hinv
  cases l with
  | nil => cases hhead
  | cons p t =>
    rw [List.head?_cons, Option.some_inj] at hhead
    subst hhead
    simp only [List.tail_cons] at htail
    by_cases hn : name = self
    · subst hn
      have hval :
          AddOnePeer name expiration ({ name := name, expiration := 0 } :: t)
            = { name := name, expiration := 0 } :: t := by
        unfold AddOnePeer
        simp [addOnePeerLoop]
      rw [hval]
      exact ⟨rfl, htail⟩
    · have hne : ¬ (({ name := self, expiration := 0 } : PortalPeers).name
          = name) := fun h => hn h.symm
      have hloopc :
          addOnePeerLoop name expiration
              ({ name := self, expiration := 0 } :: t)
            = (addOnePeerLoop name expiration t).map
                (({ name := self, expiration := 0 } : PortalPeers) :: ·) := by
        simp only [addOnePeerLoop]
        rw [if_neg hne]
      cases hr : addOnePeerLoop name expiration t with
      | some t' =>
        have hval :
            AddOnePeer name expiration ({ name := self, expiration := 0 } :: t)
              = { name := self, expiration := 0 } :: t' := by
          unfold AddOnePeer
          rw [hloopc, hr, Option.map_some']
        rw [hval]
        exact ⟨rfl, addOnePeerLoop_names name expiration self t t' hr htail⟩
      | none =>
        have hval :
            AddOnePeer name expiration ({ name := self, expiration := 0 } :: t)
              = if (({ name := self, expiration := 0 } : PortalPeers) :: t).length
                    < REDIRECT_MAX
                then ({ name := self, expiration := 0 } :: t)
                       ++ [{ name := name, expiration := expiration }]
                else { name := self, expiration := 0 } :: t := by
          unfold AddOnePeer
          rw [hloopc, hr, Option.map_none']
        rw [hval]
        by_cases hcap :
            (({ name := self, expiration := 0 } : PortalPeers) :: t).length
              < REDIRECT_MAX
        · rw [if_pos hcap]
          refine ⟨rfl, ?_⟩
          intro q hq
          simp only [List.cons_append, List.tail_cons] at hq
          rcases List.mem_append.1 hq with hq' | hq'
          · exact htail q hq'
          · rcases List.mem_singleton.1 hq' with rfl
            exact hn
        · rw [if_neg hcap]
          exact ⟨rfl, htail⟩

theorem addPeers_selfInv (self hostName : List Char) (now : Int) (live : Bool)
    (tokens : List (List Char)) (l : List PortalPeers)
    (hinv : selfInv self l) :
    selfInv self (AddPeers hostName now live tokens l) := by
  cases tokens with
  | nil => exact hinv
  | cons t0 rest =>
    simp only [AddPeers]
    by_cases h0 : t0 = hostName
    · rw [if_pos h0]
      exact hinv
    · rw [if_neg h0]
      generalize (t0 :: rest : List (List Char)) = toks
      clear h0
      induction toks generalizing l with
      | nil => exact hinv
      | cons t ts ih =>
        rw [List.foldl_cons]
        exact ih _ (addOnePeer_selfInv self _ _ l hinv)

theorem runPeerMsgs_selfInv (self hostName : List Char)
    (msgs : List (Int × Bool × List (List Char))) :
    ∀ l, selfInv self l → selfInv self (runPeerMsgs hostName msgs l) := by
  induction msgs with
  | nil =>
    intro l h
    exact h
  | cons m ms ih =>
    intro l h
    unfold runPeerMsgs
    rw [List.foldl_cons]
    exact ih _ (addPeers_selfInv self hostName m.1 m.2.1 m.2.2 l h)

/-- **C8 (amended).** In every reachable state of the portal, the peer table
contains the portal's own name (`host`, or `host:port` when the HTTP port is
not 80) as exactly one entry: it is inserted at startup as the first entry,
static (expiration 0), and no sequence of inbound PEER messages ever changes
it, duplicates it, or inserts the portal's own name elsewhere in the table. -/
theorem self_peer_invariant (hostName : List Char) (port : Nat)
    (msgs : List (Int × Bool × List (List Char))) :
    selfInv (selfPeerName hostName port)
      (runPeerMsgs hostName msgs (startupPeers hostName port)) := by
  have hstart : selfInv (selfPeerName hostName port)
      (startupPeers hostName port) := by
    unfold startupPeers AddOnePeer
    simp [addOnePeerLoop, REDIRECT_MAX, selfInv]
  exact runPeerMsgs_selfInv (selfPeerName hostName port) hostName msgs _ hstart

/-- The token-splitting loop of DecodeMessage (hp_redirect.c:434-451): stops
at the first control character (`buffer[i] < ' '`, including the NUL
terminator); a space ends the current token and the following run of spaces
is skipped by the inner do/while (modelled by the `skip` flag; the first
character after the run is taken into the next token without being tested,
because the for loop increments past it).  The final, possibly empty, token
is always added.  Returns none when the token limit is hit at a space
boundary (`count >= REDIRECT_MAX`, the "Too many tokens" error). -/
def decodeTokens : Bool → Nat → List Char → List Char →
    Option (List (List Char))
  | skip, _, cur, [] => if skip then some [[]] else some [cur.reverse]
  | skip, count, cur, c :: rest =>
    if skip then
      if c = ' ' then decodeTokens true count cur rest
      else decodeTokens false count [c] rest
    else if c < ' ' then some [cur.reverse]
    else if c = ' ' then
      if REDIRECT_MAX ≤ count then none
      else (decodeTokens true (count + 1) [] rest).map (cur.reverse :: ·)
    else decodeTokens false count (c :: cur) rest

/-- The effect performed by a successfully decoded message. -/
inductive DecodeEffect where
  | noop
  | redirect (tokens : List (List Char))
  | peers (tokens : List (List Char))
  | localMode
  | sign (method value : List Char)
deriving DecidableEq, Repr

/-- DecodeMessage's outcome: either the process exits with code 1, or the
call returns having performed the given effect. -/
inductive DecodeResult where
  | exit1
  | ok (eff : DecodeEffect)
deriving DecidableEq, Repr

/-- DecodeMessage (hp_redirect.c:429-500).  `live` is true for a UDP message
and false for a configuration line; every error path calls `exit(1)` only
when not live.  For live messages the token after the keyword is the
timestamp, excluded from the argument count and from the argument list.  The
SIGN branch stores a key only when the line has exactly 3 tokens (the
key-table capacity check only gates storage and is not modelled); a
malformed SIGN line is silently ignored, never an error. -/
def DecodeMessage (live : Bool) (line : List Char) : DecodeResult :=
  match decodeTokens false 0 [] line with
  | none => if live then .ok .noop else .exit1
  | some tokens =>
    match tokens with
    | [] => .ok .noop
    | t0 :: rest =>
      if t0 = ("REDIRECT".toList) then
        if tokens.length - (if live then 1 else 0) < 3 then
          (if live then .ok .noop else .exit1)
        else .ok (.redirect (if live then rest.drop 1 else rest))
      else if t0 = ("PEER".toList) then
        if tokens.length - (if live then 1 else 0) < 2 then
          (if live then .ok .noop else .exit1)
        else .ok (.peers (if live then rest.drop 1 else rest))
      else if live then .ok .noop
      else if t0 = ("LOCAL".toList) then .ok .localMode
      else if t0 = ("SIGN".toList) then
        match rest with
        | [m, v] => .ok (.sign m v)
        | _ => .ok .noop
      else .exit1

/-- A configuration line is decoded by LoadConfig when it neither starts
with '#' nor with a character at or below ' ' (hp_redirect.c:521). -/
def configLineActive (line : List Char) : Bool :=
  match line with
  | [] => false
  | c :: _ => (c != '#') && decide (' ' < c)

/-- LoadConfig (hp_redirect.c:502-530), reduced to its parse outcome: every
active line is decoded with live=0, and the process exits iff some active
line is a parse error (DecodeMessage exits at the first one). -/
def LoadConfigExits (lines : List (List Char)) : Bool :=
  lines.any (fun line =>
    configLineActive line && decide (DecodeMessage false line = .exit1))

/-- The configuration-reload step of hp_redirect_background (hp_redirect.c:
690-699): when the file's mtime changed, the file is re-parsed by the very
same LoadConfig used at startup, with the same live=0 error handling.
Returns whether the process exits during the reload. -/
def reloadExits (lines : List (List Char)) : Bool :=
  LoadConfigExits lines

/-- Claim C2's parse errors for a configuration line: too many tokens, an
incomplete REDIRECT (fewer than 3 tokens) or PEER (fewer than 2 tokens)
line, or an unknown keyword. -/
def configParseError (line : List Char) : Prop :=
  match decodeTokens false 0 [] line with
  | none => True
  | some [] => False
  | some (t0 :: rest) =>
    (t0 = ("REDIRECT".toList) ∧ (t0 :: rest).length < 3)
    ∨ (t0 = ("PEER".toList) ∧ (t0 :: rest).length < 2)
    ∨ (t0 ≠ ("REDIRECT".toList) ∧ t0 ≠ ("PEER".toList)
       ∧ t0 ≠ ("LOCAL".toList) ∧ t0 ≠ ("SIGN".toList))

/-- **C2 (counterexample).** A parse error during a configuration reload
does terminate the process: re-parsing a changed file with an unknown
keyword exits, because the reload path calls the same LoadConfig as startup
and DecodeMessage calls exit(1) on every parse error whenever live is 0
(hp_redirect.c:696, 498). -/
theorem reload_parse_error_exits :
    reloadExits [("BOGUS".toList)] = true := by decide

theorem decodeMessage_config_error (line : List Char) :
    DecodeMessage false line = .exit1 ↔ configParseError line := by
  have hRP : ¬ ("REDIRECT".toList) = ("PEER".toList) := by decide
  have hRL : ¬ ("REDIRECT".toList) = ("LOCAL".toList) := by decide
  have hRS : ¬ ("REDIRECT".toList) = ("SIGN".toList) := by decide
  have hPL : ¬ ("PEER".toList) = ("LOCAL".toList) := by decide
  have hPS : ¬ ("PEER".toList) = ("SIGN".toList) := by decide
  have hLS : ¬ ("LOCAL".toList) = ("SIGN".toList) := by decide
  unfold DecodeMessage configParseError
  cases decodeTokens false 0 [] line with
  | none => simp
  | some tokens =>
    cases tokens with
    | nil => simp
    | cons t0 rest =>
      by_cases h1 : t0 = ("REDIRECT".toList)
      · subst h1
        by_cases h2 : rest.length + 1 < 3
        · simp_all
        · simp_all
      · by_cases h2 : t0 = ("PEER".toList)
        · subst h2
          by_cases h3 : rest = []
          · subst h3
            simp_all
          · have h4 : ¬ rest.length + 1 < 2 := by
              have : rest.length ≠ 0 := fun h0 =>
                h3 (List.eq_nil_of_length_eq_zero h0)
              omega
            simp_all
        · by_cases h3 : t0 = ("LOCAL".toList)
          · subst h3
            simp_all
          · by_cases h4 : t0 = ("SIGN".toList)
            · subst h4
              match rest with
              | [m, v] => simp_all
              | [] => simp_all
              | [m] => simp_all
              | m :: v :: w :: r => simp_all
            · simp_all

/-- **C2 (amended).** A parse error in a live UDP message never terminates
the process; a parse error in the configuration file terminates the process
whenever the file is parsed — the reload path of hp_redirect_background uses
the very same live=0 loader as startup, so an invalid file aborts the portal
during a reload too, exactly when some active line of the file is a parse
error (unknown keyword, incomplete REDIRECT or PEER line, too many
tokens). -/
theorem decode_exit_characterization :
    (∀ line : List Char, DecodeMessage true line ≠ .exit1)
    ∧ (∀ lines : List (List Char),
         reloadExits lines = true ↔
           ∃ line ∈ lines, configLineActive line = true ∧ configParseError line) := by
  constructor
  · intro line
    unfold DecodeMessage
    cases decodeTokens false 0 [] line with
    | none => simp
    | some tokens =>
      cases tokens with
      | nil => simp
      | cons t0 rest =>
        intro h
        repeat' split at h
        all_goals simp_all
  · intro lines
    unfold reloadExits LoadConfigExits
    rw [List.any_eq_true]
    constructor
    · rintro ⟨line, hmem, hcond⟩
      rw [Bool.and_eq_true, decide_eq_true_eq] at hcond
      exact ⟨line, hmem, hcond.1, (decodeMessage_config_error line).1 hcond.2⟩
    · rintro ⟨line, hmem, hact, herr⟩
      refine ⟨line, hmem, ?_⟩
      rw [Bool.and_eq_true, decide_eq_true_eq]
      exact ⟨hact, (decodeMessage_config_error line).2 herr⟩

theorem decode_exit_characterization_witness :
    DecodeMessage true ("NONSENSE".toList) ≠ .exit1 :=
  decode_exit_characterization.1 ("NONSENSE".toList)

/-- bin2hex (houseportalhmac.c:49-52): the low 4 bits as a lowercase hex
character. -/
def bin2hex (v : Nat) : Char :=
  ("0123456789abcdef".toList).getD (v % 16) '0'

/-- hex2bin (houseportalhmac.c:54-64): the value of one hex character, 0 for
anything that is not a hex digit. -/
def hex2bin (c : Char) : Nat :=
  if '0' ≤ c ∧ c ≤ '9' then c.toNat - '0'.toNat
  else if 'A' ≤ c ∧ c ≤ 'F' then c.toNat - 'A'.toNat + 10
  else if 'a' ≤ c ∧ c ≤ 'f' then c.toNat - 'a'.toNat + 10
  else 0

/-- The pair loop of hmac_hex2bin (houseportalhmac.c:74-76): consecutive hex
character pairs become bytes; an unpaired trailing character is dropped (the
C code forces an even length). -/
def hexPairsToBytes : List Char → List Nat
  | a :: b :: rest => (hex2bin b + 16 * hex2bin a) :: hexPairsToBytes rest
  | _ => []

/-- hmac_hex2bin (houseportalhmac.c:66-78): the key is capped at 64 bytes
(128 hex characters).  The C loop's final iteration writes one extra byte
past the returned length; that byte is not part of the key. -/
def hmacHexKey (hexkey : List Char) : List Nat :=
  hexPairsToBytes (hexkey.take 128)

/-- houseportalhmac (houseportalhmac.c:80-106), parametric in the HMAC
primitive itself (OpenSSL's HMAC-SHA256 over key bytes and data bytes is an
external collaborator, out of the repository's scope): only the "SHA-256"
cypher is supported, and the signature is the lowercase hex encoding of the
first 4 bytes of the digest (8 characters). -/
def houseportalhmac (hmac : List Nat → List Nat → List Nat)
    (cypher hexkey data : List Char) : Option (List Char) :=
  if cypher = ("SHA-256".toList) then
    let output := (hmac (hmacHexKey hexkey) (data.map Char.toNat)).take 4
    some (output.foldr (fun b acc => bin2hex (b / 16) :: bin2hex b :: acc) [])
  else none

/-- hp_redirect_inspect2 (hp_redirect.c:532-554): try every configured key
whose method matches the message's; accept when some key's signature of the
data equals the message's signature. -/
def hp_redirect_inspect2 (hmac : List Nat → List Nat → List Nat)
    (keys : List (List Char × List Char)) (data method value : List Char) :
    Bool :=
  keys.any (fun k =>
    k.1 == method && (houseportalhmac hmac k.1 k.2 data == some value))

/-- The " SHA-256 " marker (hp_redirect.c:560). -/
def sha256mark : List Char := (" SHA-256 ".toList)

/-- strstr-style first-occurrence split (hp_redirect.c:564): the part of the
string before the first occurrence of the pattern and the part after it;
none when the pattern does not occur. -/
def splitOnFirst (p : List Char) : List Char → Option (List Char × List Char)
  | [] => if p = [] then some ([], []) else none
  | c :: rest =>
    if (c :: rest).take p.length = p then some ([], (c :: rest).drop p.length)
    else (splitOnFirst p rest).map (fun pr => (c :: pr.1, pr.2))

/-- hp_redirect_inspect (hp_redirect.c:556-580): whether the datagram is
accepted, together with the data that will be decoded — the datagram
truncated at the first " SHA-256 " mark when one is present (the truncation
happens before the key-set check, so it applies even when no key is
configured).  With no configured key everything is accepted; with keys, an
unmarked datagram is rejected and a marked one is checked by
hp_redirect_inspect2 against the rest of the datagram after the mark. -/
def hp_redirect_inspect (hmac : List Nat → List Nat → List Nat)
    (keys : List (List Char × List Char)) (msg : List Char) :
    Bool × List Char :=
  match splitOnFirst sha256mark msg with
  | some pr =>
    if keys.length = 0 then (true, pr.1)
    else (hp_redirect_inspect2 hmac keys pr.1 ("SHA-256".toList) pr.2, pr.1)
  | none =>
    if keys.length = 0 then (true, msg) else (false, msg)

/-- hp_redirect_udp (hp_redirect.c:582-595): an accepted datagram is decoded
as a live message, with the signature suffix already stripped by the
inspection; a rejected datagram is dropped. -/
def hp_redirect_udp (hmac : List Nat → List Nat → List Nat)
    (keys : List (List Char × List Char)) (msg : List Char) :
    Option DecodeResult :=
  let pr := hp_redirect_inspect hmac keys msg
  if pr.1 then some (DecodeMessage true pr.2) else none

theorem splitOnFirst_some (p : List Char) (hp : p ≠ []) :
    ∀ (s a b : List Char), splitOnFirst p s = some (a, b) ↔
      (s = a ++ p ++ b
       ∧ ∀ a' b', s = a' ++ p ++ b' → a.length ≤ a'.length) := by
  intro s
  induction s with
  | nil =>
    intro a b
    simp only [splitOnFirst, if_neg hp]
    constructor
    · intro h
      cases h
    · rintro ⟨h, -⟩
      exfalso
      cases a with
      | nil =>
        cases p with
        | nil => exact hp rfl
        | cons x xs => simp at h
      | cons x xs => simp at h
  | cons c rest ih =>
    intro a b
    by_cases ht : (c :: rest).take p.length = p
    · simp only [splitOnFirst, if_pos ht, Option.some_inj, Prod.mk.injEq]
      constructor
      · rintro ⟨rfl, rfl⟩
        refine ⟨?_, ?_⟩
        · conv_lhs => rw [← List.take_append_drop p.length (c :: rest)]
          rw [ht]
          simp
        · intro a' b' _
          simp
      · rintro ⟨hdec, hmin⟩
        have hd : c :: rest = p ++ (c :: rest).drop p.length := by
          conv_lhs => rw [← List.take_append_drop p.length (c :: rest)]
          rw [ht]
        have ha : a = [] := by
          have := hmin [] ((c :: rest).drop p.length) (by simpa using hd)
          exact List.eq_nil_of_length_eq_zero (Nat.le_zero.1 this)
        subst ha
        refine ⟨rfl, ?_⟩
        simp only [List.nil_append] at hdec
        have := hd.symm.trans hdec
        exact List.append_cancel_left this
    · simp only [splitOnFirst, if_neg ht]
      constructor
      · intro h
        rcases Option.map_eq_some'.1 h with ⟨pr, hr, heq⟩
        obtain ⟨a₀, b₀⟩ := pr
        injection heq with h1 h2
        subst h1
        subst h2
        obtain ⟨hdec, hmin⟩ := (ih a₀ b₀).1 hr
        refine ⟨by rw [hdec]; rfl, ?_⟩
        intro a' b' hdec'
        cases a' with
        | nil =>
          exfalso
          apply ht
          simp only [List.nil_append] at hdec'
          rw [hdec', List.take_left' rfl]
        | cons x a₁ =>
          have hx : x = c ∧ rest = a₁ ++ p ++ b' := by
            rw [List.cons_append, List.cons_append] at hdec'
            exact ⟨(List.cons.injEq _ _ _ _ ▸ hdec').1.symm,
              (List.cons.injEq _ _ _ _ ▸ hdec').2.symm ▸ rfl⟩
          simp only [List.length_cons, Nat.succ_le_succ_iff]
          exact hmin a₁ b' hx.2
      · rintro ⟨hdec, hmin⟩
        cases a with
        | nil =>
          exfalso
          apply ht
          simp only [List.nil_append] at hdec
          rw [hdec, List.take_left' rfl]
        | cons x a₀ =>
          rw [List.cons_append, List.cons_append] at hdec
          injection hdec with hxc hrest
          subst hxc
          have hr : splitOnFirst p rest = some (a₀, b) := by
            rw [ih a₀ b]
            refine ⟨hrest, ?_⟩
            intro a₁ b₁ h₁
            have := hmin (c :: a₁) b₁
              (by rw [List.cons_append, List.cons_append, ← h₁])
            simpa using this
          rw [hr]
          rfl

theorem splitOnFirst_none (p : List Char) (hp : p ≠ []) :
    ∀ s, splitOnFirst p s = none ↔ ∀ a b, s ≠ a ++ p ++ b := by
  intro s
  induction s with
  | nil =>
    simp only [splitOnFirst, if_neg hp, true_iff]
    intro a b h
    cases a with
    | nil =>
      cases p with
      | nil => exact hp rfl
      | cons x xs => simp at h
    | cons x xs => simp at h
  | cons c rest ih =>
    by_cases ht : (c :: rest).take p.length = p
    · simp only [splitOnFirst, if_pos ht]
      constructor
      · intro h
        cases h
      · intro hno
        exfalso
        apply hno [] ((c :: rest).drop p.length)
        conv_lhs => rw [← List.take_append_drop p.length (c :: rest)]
        rw [ht]
        simp
    · simp only [splitOnFirst, if_neg ht, Option.map_eq_none', ih]
      constructor
      · intro h a b hdec
        cases a with
        | nil =>
          apply ht
          simp only [List.nil_append] at hdec
          rw [hdec, List.take_left' rfl]
        | cons x a₀ =>
          rw [List.cons_append, List.cons_append] at hdec
          exact h a₀ b ((List.cons.injEq _ _ _ _ ▸ hdec).2)
      · intro h a b hdec
        exact h (c :: a) b (by rw [List.cons_append, List.cons_append, ← hdec])

theorem minDecomp_unique (p msg a b a' b' : List Char)
    (h1 : msg = a ++ p ++ b)
    (hm1 : ∀ x y, msg = x ++ p ++ y → a.length ≤ x.length)
    (h2 : msg = a' ++ p ++ b')
    (hm2 : ∀ x y, msg = x ++ p ++ y → a'.length ≤ x.length) :
    a = a' ∧ b = b' := by
  have hl : a.length = a'.length := le_antisymm (hm1 a' b' h2) (hm2 a b h1)
  have he : a ++ (p ++ b) = a' ++ (p ++ b') := by
    have h := h1.symm.trans h2
    rwa [List.append_assoc, List.append_assoc] at h
  have ha : a = a' := by
    have h := congrArg (List.take a.length) he
    rwa [List.take_left' rfl, List.take_left' hl.symm] at h
  subst ha
  exact ⟨rfl, List.append_cancel_left (List.append_cancel_left he)⟩

/-- Claim C3's acceptance condition, following the spec's words: either no
key is configured, or the message carries a SHA-256 signature suffix whose
value is the signature of the message body (suffix removed) under some
configured SHA-256 key. -/
def specAccepted (hmac : List Nat → List Nat → List Nat)
    (keys : List (List Char × List Char)) (msg : List Char) : Prop :=
  keys = [] ∨ ∃ body sig, msg = body ++ sha256mark ++ sig ∧
    ∃ k ∈ keys, k.1 = ("SHA-256".toList)
      ∧ houseportalhmac hmac k.1 k.2 body = some sig

/-- **C3 (counterexample).** The acceptance test splits the datagram at the
*first* occurrence of " SHA-256 ", not at the signature suffix: a message
whose signed body itself contains " SHA-256 " carries a perfectly valid
signature suffix yet is rejected, because the code compares the signature of
everything before the first mark against everything after it. -/
theorem inspect_suffix_mismatch :
    ¬ ∀ (hmac : List Nat → List Nat → List Nat)
        (keys : List (List Char × List Char)) (msg : List Char),
        (hp_redirect_inspect hmac keys msg).1 = true ↔
          specAccepted hmac keys msg := by
  intro hall
  have hiff := hall (fun _ _ => [0, 0, 0, 0])
    [(("SHA-256".toList), ("00".toList))]
    (("X SHA-256 Y".toList) ++ sha256mark ++ ("00000000".toList))
  have hspec : specAccepted (fun _ _ => [0, 0, 0, 0])
      [(("SHA-256".toList), ("00".toList))]
      (("X SHA-256 Y".toList) ++ sha256mark ++ ("00000000".toList)) := by
    refine Or.inr ⟨("X SHA-256 Y".toList), ("00000000".toList), rfl, ?_⟩
    exact ⟨(("SHA-256".toList), ("00".toList)), by decide, rfl, by decide⟩
  have htrue := hiff.2 hspec
  have hfalse : (hp_redirect_inspect (fun _ _ => [0, 0, 0, 0])
      [(("SHA-256".toList), ("00".toList))]
      (("X SHA-256 Y".toList) ++ sha256mark ++ ("00000000".toList))).1
        = false := by decide
  rw [htrue] at hfalse
  cases hfalse

/-- **C3 (amended).** An inbound UDP control message is accepted iff either
the configured key set is empty, or the message splits at the *first*
occurrence of " SHA-256 " into a body and a suffix such that the suffix
equals the lowercase hex encoding of the first 4 bytes of HMAC-SHA256 of
that body under at least one configured key with method SHA-256.  An
unsigned message (no mark) is rejected whenever at least one key is
configured; a message signed by the client API is accepted provided its
payload contains no " SHA-256 " of its own before the signature suffix. -/
theorem hp_redirect_inspect_split (hmac : List Nat → List Nat → List Nat)
    (keys : List (List Char × List Char)) (msg a b : List Char)
    (h : splitOnFirst sha256mark msg = some (a, b)) :
    hp_redirect_inspect hmac keys msg
      = if keys.length = 0 then (true, a)
        else (hp_redirect_inspect2 hmac keys a ("SHA-256".toList) b, a) := by
  unfold hp_redirect_inspect
  rw [h]

theorem hp_redirect_inspect_nosplit (hmac : List Nat → List Nat → List Nat)
    (keys : List (List Char × List Char)) (msg : List Char)
    (h : splitOnFirst sha256mark msg = none) :
    hp_redirect_inspect hmac keys msg
      = if keys.length = 0 then (true, msg) else (false, msg) := by
  unfold hp_redirect_inspect
  rw [h]

theorem inspect_accept_iff (hmac : List Nat → List Nat → List Nat)
    (keys : List (List Char × List Char)) (msg : List Char) :
    (hp_redirect_inspect hmac keys msg).1 = true ↔
      (keys = [] ∨ ∃ body sig,
        (msg = body ++ sha256mark ++ sig
         ∧ ∀ b' s', msg = b' ++ sha256mark ++ s' → body.length ≤ b'.length)
        ∧ ∃ k ∈ keys, k.1 = ("SHA-256".toList)
            ∧ houseportalhmac hmac k.1 k.2 body = some sig) := by
  have hpne : sha256mark ≠ [] := by decide
  cases hsp : splitOnFirst sha256mark msg with
  | some pr =>
    obtain ⟨a, b⟩ := pr
    obtain ⟨hdec, hmin⟩ := (splitOnFirst_some sha256mark hpne msg a b).1 hsp
    rw [hp_redirect_inspect_split hmac keys msg a b hsp]
    by_cases hk : keys.length = 0
    · have hknil : keys = [] := List.eq_nil_of_length_eq_zero hk
      simp [hk, hknil]
    · rw [if_neg hk]
      have hkne : keys ≠ [] := fun h => hk (by simp [h])
      simp only [hp_redirect_inspect2, List.any_eq_true, Bool.and_eq_true,
        beq_iff_eq]
      constructor
      · rintro ⟨k, hkmem, hkm, hsig⟩
        exact Or.inr ⟨a, b, ⟨hdec, hmin⟩, k, hkmem, hkm, hsig⟩
      · rintro (hnil | ⟨body, sig, ⟨hdec', hmin'⟩, k, hkmem, hkm, hsig⟩)
        · exact absurd hnil hkne
        · obtain ⟨ha, hb⟩ := minDecomp_unique sha256mark msg body sig a b
            hdec' hmin' hdec hmin
          subst ha
          subst hb
          exact ⟨k, hkmem, hkm, hsig⟩
  | none =>
    have hno := (splitOnFirst_none sha256mark hpne msg).1 hsp
    rw [hp_redirect_inspect_nosplit hmac keys msg hsp]
    by_cases hk : keys.length = 0
    · have hknil : keys = [] := List.eq_nil_of_length_eq_zero hk
      simp [hk, hknil]
    · rw [if_neg hk]
      constructor
      · intro h
        cases h
      · rintro (hnil | ⟨body, sig, ⟨hdec', -⟩, -⟩)
        · exact absurd hnil (fun h => hk (by simp [h]))
        · exact absurd hdec' (hno body sig)

theorem inspect_accept_iff_witness :
    (hp_redirect_inspect (fun _ _ => [0]) [] ("PEER 1 x".toList)).1 = true :=
  (inspect_accept_iff (fun _ _ => [0]) [] ("PEER 1 x".toList)).2 (Or.inl rfl)

/-- **C10.** When the configured key set is empty every inbound UDP datagram
is accepted, and the body handed to DecodeMessage is the datagram truncated
at the first occurrence of " SHA-256 ": a signed message is decoded with its
signature suffix stripped, and a body that itself contains " SHA-256 " loses
everything from that first occurrence onward; a datagram without the mark is
decoded whole. -/
theorem empty_keys_accept_truncate (hmac : List Nat → List Nat → List Nat)
    (msg : List Char) :
    (hp_redirect_inspect hmac [] msg).1 = true
    ∧ (∀ a b, msg = a ++ sha256mark ++ b →
        (∀ a' b', msg = a' ++ sha256mark ++ b' → a.length ≤ a'.length) →
        hp_redirect_udp hmac [] msg = some (DecodeMessage true a))
    ∧ ((∀ a b, msg ≠ a ++ sha256mark ++ b) →
        hp_redirect_udp hmac [] msg = some (DecodeMessage true msg)) := by
  have hpne : sha256mark ≠ [] := by decide
  cases hsp : splitOnFirst sha256mark msg with
  | some pr =>
    obtain ⟨x, y⟩ := pr
    obtain ⟨hdec, hmin⟩ := (splitOnFirst_some sha256mark hpne msg x y).1 hsp
    have hins : hp_redirect_inspect hmac [] msg = (true, x) := by
      rw [hp_redirect_inspect_split hmac [] msg x y hsp]
      rfl
    have hudp : hp_redirect_udp hmac [] msg = some (DecodeMessage true x) := by
      unfold hp_redirect_udp
      rw [hins]
      rfl
    refine ⟨by rw [hins], ?_, ?_⟩
    · intro a b hdec' hmin'
      obtain ⟨ha, -⟩ := minDecomp_unique sha256mark msg a b x y
        hdec' hmin' hdec hmin
      rw [hudp, ha]
    · intro hno
      exact absurd hdec (hno x y)
  | none =>
    have hno := (splitOnFirst_none sha256mark hpne msg).1 hsp
    have hins : hp_redirect_inspect hmac [] msg = (true, msg) := by
      rw [hp_redirect_inspect_nosplit hmac [] msg hsp]
      rfl
    have hudp : hp_redirect_udp hmac [] msg = some (DecodeMessage true msg) := by
      unfold hp_redirect_udp
      rw [hins]
      rfl
    refine ⟨by rw [hins], ?_, ?_⟩
    · intro a b hdec'
      exact absurd hdec' (hno a b)
    · intro _
      exact hudp

theorem empty_keys_accept_truncate_witness :
    hp_redirect_udp (fun _ _ => [0]) []
        (("PEER 7 n".toList) ++ sha256mark ++ ("abcd1234".toList))
      = some (DecodeMessage true ("PEER 7 n".toList)) := by
  have h := (splitOnFirst_some sha256mark (by decide)
      (("PEER 7 n".toList) ++ sha256mark ++ ("abcd1234".toList))
      ("PEER 7 n".toList) ("abcd1234".toList)).1 (by decide)
  exact (empty_keys_accept_truncate (fun _ _ => [0])
    (("PEER 7 n".toList) ++ sha256mark ++ ("abcd1234".toList))).2.1
    ("PEER 7 n".toList) ("abcd1234".toList) h.1 h.2

/-- struct DepotCacheEntry (housedepositor.c:121-129).  The listener callback
is modelled by its presence. -/
structure DepotCacheEntry where
  uri : List Char
  hasListener : Bool
  refreshing : Int
  active : Int
  detected : Int
  host : List Char
  hostalive : Int
deriving DecidableEq, Repr

/-- housedepositor_subscribe, new-entry branch (housedepositor.c:197-202):
a fresh cache entry with active, detected and refreshing all zero. -/
def housedepositor_subscribe (uri : List Char) (hasListener : Bool) :
    DepotCacheEntry :=
  { uri := uri, hasListener := hasListener, refreshing := 0,
    active := 0, detected := 0, host := [], hostalive := 0 }

/-- The cache priming of housedepositor_put_submit (housedepositor.c:
321-329): after a put, detected and active are both set to the put's
timestamp so the client does not pull back its own data. -/
def housedepositor_put_prime (now : Int) (e : DepotCacheEntry) :
    DepotCacheEntry :=
  { e with detected := now, active := now }

/-- housedepositor_get_response (housedepositor.c:380-403), final status
only (the engine's redirect-following is an external collaborator): clears
`refreshing`; on failure backs `detected` off to `active`; on success
invokes the listener (when set) with the detected timestamp and advances
`active` to `detected`.  Returns the updated entry and whether the listener
was invoked. -/
def housedepositor_get_response (status : Int) (e : DepotCacheEntry) :
    DepotCacheEntry × Bool :=
  let e := { e with refreshing := 0 }
  if status ≠ 200 then ({ e with detected := e.active }, false)
  else if e.hasListener then ({ e with active := e.detected }, true)
  else (e, false)

/-- The per-file cache update of housedepositor_scan_response
(housedepositor.c:511-549), for a file record (host, timestamp) that matched
this cache entry's name: while not yet active, keep the most recent revision
seen; once active, follow the chosen host's timestamp (even backward), or
fail over to another host when the chosen one has been silent for 180 s. -/
def housedepositor_scan_update (now : Int) (host : List Char)
    (timestamp : Int) (e : DepotCacheEntry) : DepotCacheEntry :=
  if e.active = 0 then
    if e.detected < timestamp then
      { e with host := host, detected := timestamp, hostalive := now }
    else e
  else if e.host = host then
    { e with detected := timestamp, hostalive := now }
  else if e.hostalive < now - 180 then
    { e with host := host, detected := timestamp, hostalive := now }
  else e

/-- The per-entry step of housedepositor_refresh (housedepositor.c:426-447):
time out a stuck transfer (reverting `detected` to `active`), or start a GET
when `detected` differs from `active`.  Returns the updated entry and
whether a GET was issued.  (housedepositor_check_response only updates the
DepotServices table and never touches cache entries.) -/
def housedepositor_refresh_entry (now : Int) (e : DepotCacheEntry) :
    DepotCacheEntry × Bool :=
  if e.detected = 0 then (e, false)
  else if e.refreshing ≠ 0 then
    if now > e.refreshing + 10 then
      ({ e with detected := e.active, refreshing := 0 }, false)
    else (e, false)
  else if e.detected ≠ e.active then
    ({ e with refreshing := now }, true)
  else (e, false)

/-- **C9 (counterexample).** A scan response from the currently-chosen host
carrying an older timestamp (the "current" tag moved back) sets `detected`
below `active`, so `active ≤ detected` does not hold after every operation:
the scan-response update breaks it for an already-active entry. -/
theorem scan_backward_breaks_invariant :
    let e : DepotCacheEntry :=
      { uri := [], hasListener := true, refreshing := 0, active := 10,
        detected := 10, host := ("d1".toList), hostalive := 100 }
    ¬ (housedepositor_scan_update 100 ("d1".toList) 5 e).active
        ≤ (housedepositor_scan_update 100 ("d1".toList) 5 e).detected := by
  decide

/-- **C9 (amended).** `active ≤ detected` holds after subscribe, after a
put, and (with a listener set) after every GET response — the only point at
which the listener is invoked, namely exactly when the GET returns 200, and
then `active` is set to `detected`.  The refresh step preserves the
invariant, and so does a scan response while the entry is not yet active;
but a scan response for an already-active entry follows the reporting host's
timestamp even backward and may leave `detected < active` until the next
successful GET realigns them. -/
theorem depot_active_le_detected :
    (∀ uri hasListener, (housedepositor_subscribe uri hasListener).active
        ≤ (housedepositor_subscribe uri hasListener).detected)
    ∧ (∀ now e, (housedepositor_put_prime now e).active
        ≤ (housedepositor_put_prime now e).detected)
    ∧ (∀ status e, e.hasListener = true →
        (housedepositor_get_response status e).1.active
          ≤ (housedepositor_get_response status e).1.detected)
    ∧ (∀ status e, (housedepositor_get_response status e).2 = true ↔
        (status = 200 ∧ e.hasListener = true))
    ∧ (∀ status e, (housedepositor_get_response status e).2 = true →
        (housedepositor_get_response status e).1.active = e.detected
        ∧ (housedepositor_get_response status e).1.detected = e.detected)
    ∧ (∀ now e, e.active ≤ e.detected →
        (housedepositor_refresh_entry now e).1.active
          ≤ (housedepositor_refresh_entry now e).1.detected)
    ∧ (∀ now host timestamp e, e.active ≤ e.detected → e.active = 0 →
        (housedepositor_scan_update now host timestamp e).active
          ≤ (housedepositor_scan_update now host timestamp e).detected) := by
  refine ⟨?_, ?_, ?_, ?_, ?_, ?_, ?_⟩
  · intro uri hasListener
    simp [housedepositor_subscribe]
  · intro now e
    simp [housedepositor_put_prime]
  · intro status e hl
    unfold housedepositor_get_response
    by_cases hs : status ≠ 200
    · simp [hs]
    · simp [hs, hl]
  · intro status e
    unfold housedepositor_get_response
    by_cases hs : status ≠ 200
    · simp [hs]
    · push_neg at hs
      by_cases hl : e.hasListener <;> simp [hs, hl]
  · intro status e h
    unfold housedepositor_get_response at h ⊢
    by_cases hs : status ≠ 200
    · simp [hs] at h
    · by_cases hl : e.hasListener
      · simp [hs, hl]
      · simp [hs, hl] at h
  · intro now e h
    unfold housedepositor_refresh_entry
    by_cases h1 : e.detected = 0
    · simp [h1]
      omega
    · by_cases h2 : e.refreshing ≠ 0
      · by_cases h3 : now > e.refreshing + 10
        · simp [h1, h2, h3]
        · simp [h1, h2, h3, h]
      · by_cases h4 : e.detected ≠ e.active
        · simp [h1, h2, h4, h]
        · simp [h1, h2, h4, h]
  · intro now host timestamp e h h0
    unfold housedepositor_scan_update
    by_cases h1 : e.detected < timestamp
    · simp [h0, h1]
      omega
    · simp [h0, h1]
      omega

theorem depot_active_le_detected_witness :
    let e : DepotCacheEntry :=
      { uri := [], hasListener := true, refreshing := 0, active := 0,
        detected := 3, host := ("d1".toList), hostalive := 100 }
    e.active ≤ e.detected ∧ e.active = 0
    ∧ (housedepositor_scan_update 100 ("d2".toList) 7 e).active
        ≤ (housedepositor_scan_update 100 ("d2".toList) 7 e).detected := by
  refine ⟨by decide, by decide, ?_⟩
  exact depot_active_le_detected.2.2.2.2.2.2 100 ("d2".toList) 7 _
    (by decide) (by decide)

end HousePortal
